import Mathlib

/- Verification development for the webp-converter repository.

   The TypeScript source is embedded shallowly:
   the resize-dimension calculator and the staleness rule from
   src/app/api/convert-batch/route.ts and src/app/page.tsx become pure Lean
   functions; the retry engine, the parallel dispatch loop of
   ParallelProcessor.processAll, the server-side processInParallel loop and
   the client-side parallelMap from src/lib/parallel-processor.ts and the
   image-converter module become explicit state machines whose transitions
   mirror the suspension points of the async code, so that every completion
   interleaving of the event loop corresponds to a run of the machine. -/

namespace WebpConverter

/-! ## JavaScript numbers

The resize calculator divides by a height that can be zero, so finite
rationals alone cannot model it: we carry the IEEE special values NaN and the
two infinities explicitly, with division, multiplication, comparison and
Math.round behaving as in JavaScript on the cases the calculator exercises.
Finite arithmetic is modelled exactly over the rationals. -/

inductive JSNum where
  | nan : JSNum
  | posInf : JSNum
  | negInf : JSNum
  | num : ℚ → JSNum
deriving DecidableEq, Repr

/-- Division of JavaScript numbers: x / 0 is an infinity of the sign of x
(NaN when x is zero), and a finite value divided by an infinity is 0. -/
def jsDiv : JSNum → JSNum → JSNum
  | .nan, _ => .nan
  | _, .nan => .nan
  | .num a, .num b =>
      if b = 0 then (if a = 0 then .nan else if 0 < a then .posInf else .negInf)
      else .num (a / b)
  | .num _, .posInf => .num 0
  | .num _, .negInf => .num 0
  | .posInf, .num b => if 0 ≤ b then .posInf else .negInf
  | .negInf, .num b => if 0 ≤ b then .negInf else .posInf
  | .posInf, _ => .nan
  | .negInf, _ => .nan

/-- Multiplication of JavaScript numbers: an infinity times zero is NaN,
otherwise signs combine. -/
def jsMul : JSNum → JSNum → JSNum
  | .nan, _ => .nan
  | _, .nan => .nan
  | .num a, .num b => .num (a * b)
  | .num a, .posInf => if a = 0 then .nan else if 0 < a then .posInf else .negInf
  | .num a, .negInf => if a = 0 then .nan else if 0 < a then .negInf else .posInf
  | .posInf, .num b => if b = 0 then .nan else if 0 < b then .posInf else .negInf
  | .negInf, .num b => if b = 0 then .nan else if 0 < b then .negInf else .posInf
  | .posInf, .posInf => .posInf
  | .posInf, .negInf => .negInf
  | .negInf, .posInf => .negInf
  | .negInf, .negInf => .posInf

/-- Comparison x > q against a finite bound: NaN compares false, +Infinity
is greater than every finite bound. -/
def jsGtQ : JSNum → ℚ → Bool
  | .nan, _ => false
  | .posInf, _ => true
  | .negInf, _ => false
  | .num a, q => decide (q < a)

/-- Math.round: round half toward positive infinity on finite values, the
identity on NaN and the infinities. -/
def jsRound : JSNum → JSNum
  | .num q => .num ((⌊q + 1/2⌋ : ℤ) : ℚ)
  | x => x

/-- Predicate selecting the finite JavaScript numbers. -/
def JSNum.isFinite : JSNum → Bool
  | .num _ => true
  | _ => false

/-! ## ResizeCalculator (calculateResizeDimensions in route.ts) -/

/-- Return shape of calculateResizeDimensions: the source returns a
record whose width and height are numbers or undefined; undefined is
modelled as none.  The function has no error channel. -/
structure ResizeResult where
  width : Option JSNum
  height : Option JSNum
deriving DecidableEq, Repr

/-- Shallow embedding of calculateResizeDimensions from
src/app/api/convert-batch/route.ts.  Inputs are the finite numbers the
route passes (image metadata and parsed options); intermediates follow the
JavaScript arithmetic, including the division originalWidth/originalHeight
taken unconditionally on the aspect-preserving path. -/
def calculateResizeDimensions (originalWidth originalHeight maxWidth maxHeight : ℚ)
    (keepAspect : Bool) : ResizeResult :=
  if (maxWidth = 0 ∨ originalWidth ≤ maxWidth) ∧
     (maxHeight = 0 ∨ originalHeight ≤ maxHeight) then
    { width := none, height := none }
  else if !keepAspect then
    { width := if 0 < maxWidth then some (.num (min originalWidth maxWidth)) else none,
      height := if 0 < maxHeight then some (.num (min originalHeight maxHeight)) else none }
  else
    let aspect := jsDiv (.num originalWidth) (.num originalHeight)
    let w0 : JSNum := .num originalWidth
    let h0 : JSNum := .num originalHeight
    let p1 := if 0 < maxWidth ∧ jsGtQ w0 maxWidth = true then
        (JSNum.num maxWidth, jsDiv (.num maxWidth) aspect) else (w0, h0)
    let p2 := if 0 < maxHeight ∧ jsGtQ p1.2 maxHeight = true then
        (jsMul (.num maxHeight) aspect, JSNum.num maxHeight) else p1
    { width := some (jsRound p2.1), height := some (jsRound p2.2) }

/-- Control-flow predicate: the statement computing the aspect ratio in
calculateResizeDimensions executes exactly when the no-resize guard fails
and the aspect-preserving branch is taken; its divisor is originalHeight,
so this predicate holds exactly when that division divides by zero. -/
def performsZeroHeightDivision (originalWidth originalHeight maxWidth maxHeight : ℚ)
    (keepAspect : Bool) : Bool :=
  decide (¬((maxWidth = 0 ∨ originalWidth ≤ maxWidth) ∧
            (maxHeight = 0 ∨ originalHeight ≤ maxHeight))) &&
  keepAspect && decide (originalHeight = 0)

/-! ## StalenessEvaluator (isConversionStale in page.tsx) -/

inductive OutputFormat where
  | webp : OutputFormat
  | avif : OutputFormat
  | png : OutputFormat
  | jpeg : OutputFormat
deriving DecidableEq, Repr

/-- ConversionOptions from src/app/page.tsx; maintainAspectRatio is the
field named keepAspect here. -/
structure ConversionOptions where
  quality : ℚ
  maxWidth : ℚ
  maxHeight : ℚ
  keepAspect : Bool
  format : OutputFormat
deriving DecidableEq, Repr

inductive ImageStatus where
  | pending : ImageStatus
  | converting : ImageStatus
  | done : ImageStatus
  | error : ImageStatus
deriving DecidableEq, Repr

/-- Settings snapshot stored on an ImageFile at conversion time; the source
type convertedWithSettings records quality, maxWidth, maxHeight and format
only — it has no aspect-ratio field. -/
structure ConvertedSettings where
  quality : ℚ
  maxWidth : ℚ
  maxHeight : ℚ
  format : OutputFormat
deriving DecidableEq, Repr

/-- Fields of ImageFile that isConversionStale reads. -/
structure ImageFile where
  status : ImageStatus
  convertedWithSettings : Option ConvertedSettings
deriving DecidableEq, Repr

/-- Shallow embedding of isConversionStale from src/app/page.tsx: false
unless the image is done and carries a snapshot, then a four-field
inequality check that ignores the aspect-ratio flag. -/
def isConversionStale (image : ImageFile) (currentOptions : ConversionOptions) : Bool :=
  match image.status, image.convertedWithSettings with
  | ImageStatus.done, some s =>
      decide (s.quality ≠ currentOptions.quality ∨
        s.maxWidth ≠ currentOptions.maxWidth ∨
        s.maxHeight ≠ currentOptions.maxHeight ∨
        s.format ≠ currentOptions.format)
  | _, _ => false

/-- Evaluation helper for Math.round on a finite value: the rounded result
is the integer m exactly when q + 1/2 lands in [m, m+1). -/
theorem jsRound_eq (q : ℚ) (m : ℤ) (h1 : (m : ℚ) ≤ q + 1/2) (h2 : q + 1/2 < (m : ℚ) + 1) :
    jsRound (JSNum.num q) = JSNum.num m := by
  have hfl : ⌊q + 1/2⌋ = m := Int.floor_eq_iff.mpr ⟨h1, h2⟩
  simp only [jsRound]
  rw [hfl]

/-! ## Claims C7, C8, C9 -/

/-- C7: isConversionStale returns false when the image has no completed
artifact (status not done or no settings snapshot), and otherwise returns
true iff at least one of quality, maxWidth, maxHeight or format differs
between the snapshot and the current options; toggling the aspect-ratio
flag alone never changes the verdict. -/
theorem isConversionStale_spec :
    ∀ (image : ImageFile) (currentOptions : ConversionOptions),
      (isConversionStale image currentOptions = true ↔
        (image.status = ImageStatus.done ∧ ∃ s, image.convertedWithSettings = some s ∧
          (s.quality ≠ currentOptions.quality ∨ s.maxWidth ≠ currentOptions.maxWidth ∨
           s.maxHeight ≠ currentOptions.maxHeight ∨ s.format ≠ currentOptions.format))) ∧
      (∀ b : Bool, isConversionStale image { currentOptions with keepAspect := b } =
        isConversionStale image currentOptions) := by
  intro image currentOptions
  rcases image with ⟨st, cws⟩
  cases st <;> rcases cws with _ | s <;>
    simp [isConversionStale]

/-- C8: with aspect ratio maintained, the width-pass-then-height-pass clamp
with rounding yields (1920, 960) on (4000, 2000, 1920, 1080) and, after a
no-op width pass, (540, 1080) on (1000, 2000, 1920, 1080). -/
theorem calculateResizeDimensions_spec_examples :
    calculateResizeDimensions 4000 2000 1920 1080 true =
      { width := some (.num 1920), height := some (.num 960) } ∧
    jsGtQ (.num 1000) 1920 = false ∧
    calculateResizeDimensions 1000 2000 1920 1080 true =
      { width := some (.num 540), height := some (.num 1080) } := by
  have r1 : jsRound (JSNum.num 1920) = JSNum.num 1920 :=
    jsRound_eq 1920 1920 (by norm_num) (by norm_num)
  have r2 : jsRound (JSNum.num 960) = JSNum.num 960 :=
    jsRound_eq 960 960 (by norm_num) (by norm_num)
  have r3 : jsRound (JSNum.num 540) = JSNum.num 540 :=
    jsRound_eq 540 540 (by norm_num) (by norm_num)
  have r4 : jsRound (JSNum.num 1080) = JSNum.num 1080 :=
    jsRound_eq 1080 1080 (by norm_num) (by norm_num)
  refine ⟨?_, ?_, ?_⟩
  · norm_num [calculateResizeDimensions, jsDiv, jsGtQ, jsMul, r1, r2]
  · norm_num [jsGtQ]
  · norm_num [calculateResizeDimensions, jsDiv, jsGtQ, jsMul, r3, r4]

/-- C9 counterexample: at input (4000, 0, 1920, 1080, aspect preserved) the
function does execute the division by the zero height (the aspect-ratio
statement runs with divisor 0), and it does not fail with any error —
it returns the ordinary result (1920, 0).  So the claim's alternative
"never divides by the zero height or fails with an explicit
InvalidDimensions error" is false of the code. -/
theorem calculateResizeDimensions_zeroHeight_counterexample :
    performsZeroHeightDivision 4000 0 1920 1080 true = true ∧
    calculateResizeDimensions 4000 0 1920 1080 true =
      { width := some (.num 1920), height := some (.num 0) } := by
  have r1 : jsRound (JSNum.num 1920) = JSNum.num 1920 :=
    jsRound_eq 1920 1920 (by norm_num) (by norm_num)
  have r0 : jsRound (JSNum.num 0) = JSNum.num 0 :=
    jsRound_eq 0 0 (by norm_num) (by norm_num)
  refine ⟨?_, ?_⟩
  · norm_num [performsZeroHeightDivision]
  · norm_num [calculateResizeDimensions, jsDiv, jsGtQ, jsMul, r1, r0]

/-- Evaluation of the aspect-preserving path at zero height once the
no-resize guard has failed: the aspect ratio is +Infinity, the width pass
clamps to maxWidth with derived height maxWidth / Infinity = 0, and the
height pass does not fire, so the returned pair is (round maxWidth, 0). -/
theorem calcResize_zeroHeight_aspect_eq
    (originalWidth maxWidth maxHeight : ℚ)
    (hguard : ¬((maxWidth = 0 ∨ originalWidth ≤ maxWidth) ∧
        (maxHeight = 0 ∨ (0 : ℚ) ≤ maxHeight)))
    (hmwpos : 0 < maxWidth) (howgt : maxWidth < originalWidth)
    (hmh : 0 ≤ maxHeight) :
    calculateResizeDimensions originalWidth 0 maxWidth maxHeight true =
      { width := some (jsRound (JSNum.num maxWidth)),
        height := some (jsRound (JSNum.num 0)) } := by
  have howpos : 0 < originalWidth := lt_trans hmwpos howgt
  have e1 : jsDiv (.num originalWidth) (.num 0) = JSNum.posInf := by
    simp [jsDiv, howpos, howpos.ne']
  have e3 : jsDiv (.num maxWidth) JSNum.posInf = JSNum.num 0 := by
    simp [jsDiv]
  have hgt1 : jsGtQ (JSNum.num originalWidth) maxWidth = true := by
    simp [jsGtQ, howgt]
  have hgt0 : jsGtQ (JSNum.num 0) maxHeight = false := by
    simp [jsGtQ, not_lt.mpr hmh]
  unfold calculateResizeDimensions
  rw [if_neg hguard]
  simp [e1, e3, hgt1, hgt0, hmwpos]

/-- C9 amended: with zero original height and nonnegative constraints, the
function performs the division by zero whenever the no-resize guard fails on
the aspect-preserving path and never signals an error, but the result it
returns contains no NaN and no infinite component — every width or height
present is a finite number. -/
theorem calculateResizeDimensions_zeroHeight_finite
    (originalWidth maxWidth maxHeight : ℚ) (keepAspect : Bool)
    (hmw : 0 ≤ maxWidth) (hmh : 0 ≤ maxHeight) :
    (∀ x, (calculateResizeDimensions originalWidth 0 maxWidth maxHeight keepAspect).width
        = some x → x.isFinite = true) ∧
    (∀ x, (calculateResizeDimensions originalWidth 0 maxWidth maxHeight keepAspect).height
        = some x → x.isFinite = true) := by
  by_cases hguard : (maxWidth = 0 ∨ originalWidth ≤ maxWidth) ∧
      (maxHeight = 0 ∨ (0 : ℚ) ≤ maxHeight)
  · unfold calculateResizeDimensions
    rw [if_pos hguard]
    constructor <;> intro x hx <;> simp at hx
  · have hA : ¬(maxWidth = 0 ∨ originalWidth ≤ maxWidth) := fun hA =>
      hguard ⟨hA, Or.inr hmh⟩
    have hmw0 : maxWidth ≠ 0 := fun h => hA (Or.inl h)
    have howgt : maxWidth < originalWidth := by
      rcases lt_or_le maxWidth originalWidth with h | h
      · exact h
      · exact absurd (Or.inr h) hA
    have hmwpos : 0 < maxWidth := lt_of_le_of_ne hmw (Ne.symm hmw0)
    cases keepAspect with
    | false =>
        unfold calculateResizeDimensions
        rw [if_neg hguard]
        simp only [Bool.not_false, if_true]
        constructor
        · intro x hx
          by_cases h : (0 : ℚ) < maxWidth <;> simp [h] at hx <;>
            simp [← hx, JSNum.isFinite]
        · intro x hx
          by_cases h : (0 : ℚ) < maxHeight <;> simp [h] at hx <;>
            simp [← hx, JSNum.isFinite]
    | true =>
        rw [calcResize_zeroHeight_aspect_eq originalWidth maxWidth maxHeight
          hguard hmwpos howgt hmh]
        have r0 : jsRound (JSNum.num 0) = JSNum.num 0 :=
          jsRound_eq 0 0 (by norm_num) (by norm_num)
        constructor
        · intro x hx
          simp only [Option.some_inj] at hx
          simp [← hx, jsRound, JSNum.isFinite]
        · intro x hx
          simp only [r0, Option.some_inj] at hx
          simp [← hx, JSNum.isFinite]

/-- C9 amended, witness: concrete instantiation at (4000, 0, 1920, 1080). -/
theorem calculateResizeDimensions_zeroHeight_finite_witness :
    (∀ x, (calculateResizeDimensions 4000 0 1920 1080 true).width
        = some x → x.isFinite = true) ∧
    (∀ x, (calculateResizeDimensions 4000 0 1920 1080 true).height
        = some x → x.isFinite = true) :=
  calculateResizeDimensions_zeroHeight_finite 4000 1920 1080 true
    (by norm_num) (by norm_num)

/-! ## TaskScheduler retry engine (ParallelProcessor.executeWithRetry)

The for-loop of executeWithRetry runs attempt = 0..maxRetries; each failing
attempt stores the error, and when attempt is less than maxRetries the
engine awaits a delay of retryBaseDelay times 2 to the attempt before the
next attempt.  A per-attempt timeout is surfaced to this loop as a failing
attempt, so the executor outcome oracle below covers both executor failures
and timeouts.  The loop is encoded with explicit fuel equal to the number
of remaining iterations. -/

/-- Outcome of executeWithRetry together with the execution trace the
claims speak about: how many times the executor ran and which backoff
delays were awaited, in order. -/
structure RetryTrace (R : Type) where
  success : Bool
  result? : Option R
  error? : Option String
  attemptsUsed : ℕ
  delays : List ℕ
deriving DecidableEq, Repr

/-- Loop of executeWithRetry.  aborted is the scheduler's abort flag as
read at the top of each iteration (constant across the loop when no
cancellation happens); exec gives the settled outcome of attempt number n;
maxRetries is the per-task resolved retry budget. -/
def executeWithRetryGo {R : Type} (aborted : Bool) (exec : ℕ → Except String R)
    (maxRetries retryBaseDelay : ℕ) : (fuel attempt : ℕ) → Option String → RetryTrace R
  | 0, _, lastError =>
      { success := false, result? := none, error? := lastError,
        attemptsUsed := 0, delays := [] }
  | fuel + 1, attempt, _ =>
      if aborted then
        { success := false, result? := none, error? := some "Aborted",
          attemptsUsed := 0, delays := [] }
      else
        match exec attempt with
        | .ok r =>
            { success := true, result? := some r, error? := none,
              attemptsUsed := 1, delays := [] }
        | .error e =>
            let rest := executeWithRetryGo aborted exec maxRetries retryBaseDelay fuel
              (attempt + 1) (some e)
            { rest with
              attemptsUsed := rest.attemptsUsed + 1,
              delays := if attempt < maxRetries then
                  retryBaseDelay * 2 ^ attempt :: rest.delays
                else rest.delays }

/-- executeWithRetry: run the loop from attempt 0 with no recorded error;
the loop bound attempt ≤ maxRetries gives maxRetries + 1 iterations of
fuel. -/
def executeWithRetry {R : Type} (aborted : Bool) (exec : ℕ → Except String R)
    (maxRetries retryBaseDelay : ℕ) : RetryTrace R :=
  executeWithRetryGo aborted exec maxRetries retryBaseDelay (maxRetries + 1) 0 none

/-- Invariant computation for the always-failing executor: starting at any
attempt with matching fuel, the loop fails after using all remaining fuel,
carries the last error, and awaits exactly the backoff delays of the failed
attempts that still had retries left. -/
theorem executeWithRetryGo_always_fails {R : Type} (exec : ℕ → Except String R)
    (e : ℕ → String) (maxRetries retryBaseDelay : ℕ)
    (hfail : ∀ k, exec k = .error (e k)) :
    ∀ (fuel attempt : ℕ) (lastError : Option String),
      fuel + attempt = maxRetries + 1 →
      lastError = (if attempt = 0 then none else some (e (attempt - 1))) →
      executeWithRetryGo false exec maxRetries retryBaseDelay fuel attempt lastError =
        { success := false, result? := none, error? := some (e maxRetries),
          attemptsUsed := fuel,
          delays := (List.range (maxRetries - attempt)).map
            (fun k => retryBaseDelay * 2 ^ (attempt + k)) } := by
  intro fuel
  induction fuel with
  | zero =>
      intro attempt lastError hfa hlast
      have hatt : attempt = maxRetries + 1 := by omega
      subst hatt
      simp only [executeWithRetryGo]
      have h0 : maxRetries + 1 ≠ 0 := Nat.succ_ne_zero _
      rw [if_neg h0] at hlast
      have hsub : maxRetries + 1 - 1 = maxRetries := by omega
      rw [hsub] at hlast
      have hrange : maxRetries - (maxRetries + 1) = 0 := by omega
      simp [hlast, hrange]
  | succ fuel ih =>
      intro attempt lastError hfa hlast
      have hle : attempt ≤ maxRetries := by omega
      have hrec := ih (attempt + 1) (some (e attempt)) (by omega)
        (by simp)
      simp only [executeWithRetryGo, Bool.false_eq_true, if_false, hfail attempt, hrec]
      refine RetryTrace.mk.injEq .. ▸ ?_
      constructor
      · rfl
      constructor
      · rfl
      constructor
      · rfl
      constructor
      · omega
      by_cases hlt : attempt < maxRetries
      · rw [if_pos hlt]
        have hms : maxRetries - attempt = (maxRetries - (attempt + 1)) + 1 := by omega
        rw [hms, List.range_succ_eq_map, List.map_cons, List.map_map]
        refine congrArg₂ _ (by rw [Nat.add_zero]) ?_
        refine List.map_congr_left fun k _ => ?_
        simp only [Function.comp_apply]
        rw [show attempt + 1 + k = attempt + (k + 1) by omega]
      · rw [if_neg hlt]
        have h1 : maxRetries - attempt = 0 := by omega
        have h2 : maxRetries - (attempt + 1) = 0 := by omega
        rw [h1, h2]
        simp

/-- C3: a task whose executor fails on every attempt, with no cancellation,
resolves as a failure carrying the last error after exactly maxRetries + 1
executor invocations, and the awaited backoff delays are exactly
retryBaseDelay * 2 ^ k for k = 0..maxRetries-1, so the elapsed time is at
least their sum. -/
theorem executeWithRetry_always_fails {R : Type} (exec : ℕ → Except String R)
    (e : ℕ → String) (maxRetries retryBaseDelay : ℕ)
    (hfail : ∀ k, exec k = .error (e k)) :
    executeWithRetry false exec maxRetries retryBaseDelay =
      { success := false, result? := none, error? := some (e maxRetries),
        attemptsUsed := maxRetries + 1,
        delays := (List.range maxRetries).map
          (fun k => retryBaseDelay * 2 ^ k) } := by
  unfold executeWithRetry
  rw [executeWithRetryGo_always_fails exec e maxRetries retryBaseDelay hfail
    (maxRetries + 1) 0 none (by omega) (by simp)]
  simp

/-- C3 witness: an executor that always fails with "boom", maxRetries = 2
and base delay 500 gives 3 attempts and delays [500, 1000]. -/
theorem executeWithRetry_always_fails_witness :
    executeWithRetry false (fun _ => (Except.error "boom" : Except String Unit)) 2 500 =
      { success := false, result? := none, error? := some "boom",
        attemptsUsed := 3, delays := [500, 1000] } := by
  have h := executeWithRetry_always_fails
    (fun _ => (Except.error "boom" : Except String Unit)) (fun _ => "boom") 2 500
    (fun _ => rfl)
  simpa using h

/-! ## TaskScheduler dispatch loop (ParallelProcessor.processAll)

processAll interleaves three kinds of atomic sections on the event loop:
the synchronous prefix of processNext (abort check, queue/concurrency
guard, shift, activeCount increment), the resumption when a task's
executeWithRetry settles (results.set, completed increment, the finally
block's activeCount decrement and checkCompletion, which resolves the
promise the first time the results map holds one entry per input task),
and cancel() (abort plus clearing the queue).  The machine below has one
transition per section; which active task settles next, and with what
retry outcome, is an oracle choice, so every completion order corresponds
to a run. -/

/-- Task from src/lib/parallel-processor.ts; priority defaults to 0 as the
comparator's priority ?? 0 does. -/
structure TaskModel (T : Type) where
  id : String
  data : T
  priority : Int := 0
deriving DecidableEq, Repr

/-- TaskResult as stored into the results map: identifier, success flag,
optional payload, optional error. -/
structure TaskResultModel (R : Type) where
  id : String
  success : Bool
  result? : Option R
  error? : Option String
deriving DecidableEq, Repr

/-- Every return statement of executeWithRetry builds its TaskResult with
id := task.id; this packages a retry trace accordingly. -/
def toTaskResult {T R : Type} (t : TaskModel T) (tr : RetryTrace R) : TaskResultModel R :=
  { id := t.id, success := tr.success, result? := tr.result?, error? := tr.error? }

/-- JavaScript Map.set: replace in place when the key is present, append
otherwise. -/
def mapSet {R : Type} (m : List (String × R)) (k : String) (v : R) : List (String × R) :=
  if (m.map Prod.fst).contains k then
    m.map (fun p => if p.1 = k then (k, v) else p)
  else m ++ [(k, v)]

/-- JavaScript Map.get: value of the first entry with the key, if any. -/
def mapGet {R : Type} (m : List (String × R)) (k : String) : Option R :=
  (m.find? (fun p => p.1 = k)).map Prod.snd

/-- Stable descending insertion: a task goes before the first task of
strictly smaller priority and after tasks of equal priority, which is the
order the source's stable comparator sort (b.priority - a.priority)
produces. -/
def insertByPriority {T : Type} (t : TaskModel T) :
    List (TaskModel T) → List (TaskModel T)
  | [] => [t]
  | u :: us => if u.priority ≤ t.priority then t :: u :: us
               else u :: insertByPriority t us

/-- sortByPriority from the source: stable sort by descending priority. -/
def sortByPriority {T : Type} (tasks : List (TaskModel T)) : List (TaskModel T) :=
  tasks.foldr insertByPriority []

theorem insertByPriority_perm {T : Type} (t : TaskModel T) (l : List (TaskModel T)) :
    (insertByPriority t l).Perm (t :: l) := by
  induction l with
  | nil => exact List.Perm.refl _
  | cons u us ih =>
      by_cases h : u.priority ≤ t.priority
      · rw [insertByPriority, if_pos h]
      · rw [insertByPriority, if_neg h]
        exact (ih.cons u).trans (List.Perm.swap t u us)

theorem sortByPriority_perm {T : Type} (tasks : List (TaskModel T)) :
    (sortByPriority tasks).Perm tasks := by
  induction tasks with
  | nil => exact List.Perm.refl _
  | cons t ts ih =>
      exact (insertByPriority_perm t (sortByPriority ts)).trans (ih.cons t)

/-- Scheduler state for one processAll invocation: the live queue, the
in-flight tasks (activeCount is their number), the results map, the abort
flag, the promise (none while pending, some once resolved — its payload is
what tasks.map of results.get produces at resolution time) and the
completed counter. -/
structure ProcState (T R : Type) where
  queue : List (TaskModel T)
  active : List (TaskModel T)
  results : List (String × TaskResultModel R)
  aborted : Bool
  resolved : Option (List (Option (TaskResultModel R)))
  completed : ℕ
deriving DecidableEq, Repr

/-- State at entry of processAll: queue sorted by priority, nothing active,
empty results, and the early return resolving immediately on an empty task
list. -/
def initState {T R : Type} (tasks : List (TaskModel T)) : ProcState T R :=
  { queue := sortByPriority tasks, active := [], results := [],
    aborted := false,
    resolved := if tasks.isEmpty then some [] else none,
    completed := 0 }

/-- Resumption after a task settles: store its result under its id,
decrement activeCount, bump completed, and let checkCompletion resolve the
promise (first resolution wins, as for a JavaScript promise) when the
results map holds as many entries as there are input tasks. -/
def completeStep {T R : Type} [DecidableEq T] [DecidableEq R]
    (tasks : List (TaskModel T)) (s : ProcState T R)
    (t : TaskModel T) (res : TaskResultModel R) : ProcState T R :=
  let results' := mapSet s.results t.id res
  { s with
    active := s.active.erase t,
    results := results',
    completed := s.completed + 1,
    resolved := if s.resolved = none ∧ results'.length = tasks.length then
        some (tasks.map (fun tk => mapGet results' tk.id))
      else s.resolved }

/-- Atomic transitions of one processAll invocation. -/
inductive ProcStep {T R : Type} [DecidableEq T] [DecidableEq R] (concurrency : ℕ)
    (tasks : List (TaskModel T)) : ProcState T R → ProcState T R → Prop where
  | dispatch (s : ProcState T R) (t : TaskModel T) (rest : List (TaskModel T)) :
      s.aborted = false → s.queue = t :: rest → s.active.length < concurrency →
      ProcStep concurrency tasks s { s with queue := rest, active := s.active ++ [t] }
  | complete (s : ProcState T R) (t : TaskModel T) (tr : RetryTrace R) :
      t ∈ s.active →
      ProcStep concurrency tasks s (completeStep tasks s t (toTaskResult t tr))
  | cancel (s : ProcState T R) :
      ProcStep concurrency tasks s { s with aborted := true, queue := [] }

/-- States reachable during one processAll run on the given task list. -/
def ProcReachable {T R : Type} [DecidableEq T] [DecidableEq R] (concurrency : ℕ)
    (tasks : List (TaskModel T)) (s : ProcState T R) : Prop :=
  Relation.ReflTransGen (ProcStep (R := R) concurrency tasks) (initState tasks) s

/-! ## Claim C4: the concurrency bound -/

/-- C4: with configured concurrency c at least 1, no reachable state of a
processAll run has more than c tasks in the processing state. -/
theorem processAll_concurrency_bound {T R : Type} [DecidableEq T] [DecidableEq R]
    (c : ℕ) (tasks : List (TaskModel T)) (hc : 1 ≤ c)
    (s : ProcState T R) (hs : ProcReachable c tasks s) :
    s.active.length ≤ c := by
  induction hs with
  | refl => simp [initState]
  | tail hab hbc ih =>
      cases hbc with
      | dispatch t rest habort hq hlen =>
          simpa using hlen
      | complete t tr hmem =>
          simp only [completeStep]
          exact le_trans (List.length_erase_le t _) ih
      | cancel => simpa using ih

/-- C4 witness: concurrency 1, a one-task list, at the initial state. -/
theorem processAll_concurrency_bound_witness :
    (initState (T := Unit) (R := Unit) [{ id := "a", data := () }]).active.length ≤ 1 :=
  processAll_concurrency_bound 1 [{ id := "a", data := () }] (by norm_num)
    _ Relation.ReflTransGen.refl

/-! ## Claim C1: order-preserving resolution -/

theorem mapSet_keys {R : Type} (m : List (String × R)) (k : String) (v : R) :
    (mapSet m k v).map Prod.fst =
      if (m.map Prod.fst).contains k then m.map Prod.fst
      else m.map Prod.fst ++ [k] := by
  unfold mapSet
  by_cases h : (m.map Prod.fst).contains k
  · rw [if_pos h, if_pos h, List.map_map]
    refine List.map_congr_left fun p _ => ?_
    by_cases hp : p.1 = k
    · simp [hp]
    · simp [hp]
  · rw [if_neg h, if_neg h]
    simp

theorem mem_mapSet {R : Type} {m : List (String × R)} {k : String} {v : R}
    {p : String × R} (hp : p ∈ mapSet m k v) : p = (k, v) ∨ p ∈ m := by
  unfold mapSet at hp
  by_cases h : (m.map Prod.fst).contains k
  · rw [if_pos h] at hp
    rcases List.mem_map.mp hp with ⟨q, hq, hfq⟩
    by_cases hqk : q.1 = k
    · left; rw [← hfq]; simp [hqk]
    · right; rw [← hfq]; simpa [hqk] using hq
  · rw [if_neg h] at hp
    rcases List.mem_append.mp hp with h1 | h1
    · exact Or.inr h1
    · exact Or.inl (by simpa using h1)

theorem mapGet_mem {R : Type} (m : List (String × R)) (k : String)
    (hk : k ∈ m.map Prod.fst) :
    ∃ p, p ∈ m ∧ p.1 = k ∧ mapGet m k = some p.2 := by
  induction m with
  | nil => simp at hk
  | cons q m ih =>
      by_cases hq : q.1 = k
      · refine ⟨q, by simp, hq, ?_⟩
        unfold mapGet
        rw [List.find?_cons]
        simp [hq]
      · have hk' : k ∈ m.map Prod.fst := by
          simp only [List.map_cons, List.mem_cons] at hk
          rcases hk with h1 | h1
          · exact absurd h1.symm hq
          · exact h1
        rcases ih hk' with ⟨p, hp, hpk, hget⟩
        refine ⟨p, List.mem_cons_of_mem _ hp, hpk, ?_⟩
        unfold mapGet at hget ⊢
        rw [List.find?_cons]
        simpa [hq] using hget

/-- Inductive invariant of the dispatch loop: result-map keys are distinct
and drawn from the input ids, every stored result carries its key as id,
queue and active tasks come from the input, and once the promise is
resolved its payload has one matching entry per input position. -/
structure ProcInv {T R : Type} (tasks : List (TaskModel T)) (s : ProcState T R) : Prop where
  keysNodup : (s.results.map Prod.fst).Nodup
  entriesId : ∀ p ∈ s.results, (Prod.snd p).id = p.1
  keysSub : ∀ p ∈ s.results, p.1 ∈ tasks.map TaskModel.id
  queueSub : ∀ t ∈ s.queue, t.id ∈ tasks.map TaskModel.id
  activeSub : ∀ t ∈ s.active, t.id ∈ tasks.map TaskModel.id
  resolvedOk : ∀ out, s.resolved = some out →
    out.length = tasks.length ∧
    ∀ (i : ℕ) (hi : i < tasks.length), ∃ r, out[i]? = some (some r) ∧
      r.id = tasks[i].id

/-- Resolution is correct the moment the results map has one entry per
input task: with distinct input ids, distinct keys drawn from the ids and
full length force every id to be present, so the lookup per input position
yields a result carrying that task's id. -/
theorem resolve_spec {T R : Type} (tasks : List (TaskModel T))
    (m : List (String × TaskResultModel R))
    (hids : (tasks.map TaskModel.id).Nodup)
    (hnodup : (m.map Prod.fst).Nodup)
    (hid : ∀ p ∈ m, (Prod.snd p).id = p.1)
    (hsub : ∀ p ∈ m, p.1 ∈ tasks.map TaskModel.id)
    (hlen : m.length = tasks.length) :
    ∀ (i : ℕ) (hi : i < tasks.length),
      ∃ r, (tasks.map (fun tk => mapGet m tk.id))[i]? = some (some r) ∧
        r.id = tasks[i].id := by
  have hsub' : (m.map Prod.fst) ⊆ tasks.map TaskModel.id := by
    intro k hk
    rcases List.mem_map.mp hk with ⟨p, hp, hfp⟩
    rw [← hfp]
    exact hsub p hp
  have hperm : (m.map Prod.fst).Perm (tasks.map TaskModel.id) :=
    (hnodup.subperm hsub').perm_of_length_le
      (by rw [List.length_map, List.length_map, hlen])
  intro i hi
  have hti : tasks[i] ∈ tasks := List.getElem_mem hi
  have hmem : tasks[i].id ∈ m.map Prod.fst :=
    hperm.mem_iff.mpr (List.mem_map.mpr ⟨tasks[i], hti, rfl⟩)
  rcases mapGet_mem m _ hmem with ⟨p, hp, hpk, hget⟩
  refine ⟨p.2, ?_, by rw [hid p hp, hpk]⟩
  rw [List.getElem?_map, List.getElem?_eq_getElem hi]
  simp [hget]

theorem ProcInv_init {T R : Type} (tasks : List (TaskModel T)) :
    ProcInv tasks (initState (R := R) tasks) := by
  constructor
  · simp [initState]
  · simp [initState]
  · simp [initState]
  · intro t ht
    have ht' : t ∈ tasks :=
      (sortByPriority_perm tasks).mem_iff.mp (by simpa [initState] using ht)
    exact List.mem_map.mpr ⟨t, ht', rfl⟩
  · simp [initState]
  · intro out hout
    simp only [initState] at hout
    by_cases hE : tasks.isEmpty
    · rw [if_pos hE] at hout
      have hnil : tasks = [] := List.isEmpty_iff.mp hE
      subst hnil
      obtain rfl : [] = out := by simpa using hout
      exact ⟨rfl, fun i hi => absurd hi (by simp)⟩
    · rw [if_neg hE] at hout
      exact absurd hout (by simp)

theorem ProcInv_step {T R : Type} [DecidableEq T] [DecidableEq R]
    {c : ℕ} {tasks : List (TaskModel T)} {s s' : ProcState T R}
    (hids : (tasks.map TaskModel.id).Nodup)
    (hinv : ProcInv tasks s) (hstep : ProcStep c tasks s s') :
    ProcInv tasks s' := by
  cases hstep with
  | dispatch t rest habort hq hlen =>
      refine ⟨hinv.keysNodup, hinv.entriesId, hinv.keysSub, ?_, ?_, hinv.resolvedOk⟩
      · intro u hu
        exact hinv.queueSub u (by rw [hq]; exact List.mem_cons_of_mem _ hu)
      · intro u hu
        rcases List.mem_append.mp hu with h1 | h1
        · exact hinv.activeSub u h1
        · have hut : u = t := by simpa using h1
          subst hut
          exact hinv.queueSub u (by rw [hq]; exact List.mem_cons_self _ _)
  | complete t tr hmem =>
      have hkn : ((mapSet s.results t.id (toTaskResult t tr)).map Prod.fst).Nodup := by
        rw [mapSet_keys]
        by_cases h : (s.results.map Prod.fst).contains t.id
        · rw [if_pos h]; exact hinv.keysNodup
        · rw [if_neg h, List.nodup_append]
          refine ⟨hinv.keysNodup, List.nodup_singleton _, ?_⟩
          intro a ha hb
          have hab : a = t.id := by simpa using hb
          subst hab
          exact h (List.elem_iff.mpr ha)
      have hei : ∀ p ∈ mapSet s.results t.id (toTaskResult t tr),
          (Prod.snd p).id = p.1 := by
        intro p hp
        rcases mem_mapSet hp with h1 | h1
        · subst h1; rfl
        · exact hinv.entriesId p h1
      have hks : ∀ p ∈ mapSet s.results t.id (toTaskResult t tr),
          p.1 ∈ tasks.map TaskModel.id := by
        intro p hp
        rcases mem_mapSet hp with h1 | h1
        · subst h1; exact hinv.activeSub t hmem
        · exact hinv.keysSub p h1
      refine ⟨?_, ?_, ?_, ?_, ?_, ?_⟩
      · simpa [completeStep] using hkn
      · simpa [completeStep] using hei
      · simpa [completeStep] using hks
      · intro u hu
        exact hinv.queueSub u (by simpa [completeStep] using hu)
      · intro u hu
        exact hinv.activeSub u (List.mem_of_mem_erase (by simpa [completeStep] using hu))
      · intro out hout
        simp only [completeStep] at hout
        by_cases hcond : s.resolved = none ∧
            (mapSet s.results t.id (toTaskResult t tr)).length = tasks.length
        · rw [if_pos hcond] at hout
          obtain rfl : tasks.map (fun tk =>
              mapGet (mapSet s.results t.id (toTaskResult t tr)) tk.id) = out :=
            Option.some_inj.mp hout
          exact ⟨by simp, resolve_spec tasks _ hids hkn hei hks hcond.2⟩
        · rw [if_neg hcond] at hout
          exact hinv.resolvedOk out hout
  | cancel =>
      exact ⟨hinv.keysNodup, hinv.entriesId, hinv.keysSub, by simp,
        hinv.activeSub, hinv.resolvedOk⟩

theorem processAll_inv {T R : Type} [DecidableEq T] [DecidableEq R]
    (c : ℕ) (tasks : List (TaskModel T))
    (hids : (tasks.map TaskModel.id).Nodup)
    (s : ProcState T R) (hs : ProcReachable c tasks s) : ProcInv tasks s := by
  induction hs with
  | refl => exact ProcInv_init tasks
  | tail hab hbc ih => exact ProcInv_step hids ih hbc

/-- C1: for a task list with distinct ids, whenever a processAll run
resolves — under any dispatch and completion interleaving — the resolved
array has one entry per input task and its i-th entry is the result whose
identifier is the i-th input task's id. -/
theorem processAll_ordering {T R : Type} [DecidableEq T] [DecidableEq R]
    (c : ℕ) (tasks : List (TaskModel T))
    (hids : (tasks.map TaskModel.id).Nodup)
    (s : ProcState T R) (hs : ProcReachable c tasks s)
    (out : List (Option (TaskResultModel R))) (hout : s.resolved = some out) :
    out.length = tasks.length ∧
    ∀ (i : ℕ) (hi : i < tasks.length), ∃ r, out[i]? = some (some r) ∧
      r.id = tasks[i].id :=
  (processAll_inv c tasks hids s hs).resolvedOk out hout

/-- One-task run used to witness C1: the task is dispatched and completes
successfully, resolving the promise. -/
def wTask : TaskModel Unit := { id := "a", data := () }

def wTrace : RetryTrace Unit :=
  { success := true, result? := some (), error? := none,
    attemptsUsed := 1, delays := [] }

def wS1 : ProcState Unit Unit :=
  { queue := [], active := [wTask], results := [], aborted := false,
    resolved := none, completed := 0 }

def wS2 : ProcState Unit Unit :=
  completeStep [wTask] wS1 wTask (toTaskResult wTask wTrace)

/-- C1 witness: the concrete one-task run resolves with a single matching
entry. -/
theorem processAll_ordering_witness :
    [some (toTaskResult wTask wTrace)].length = [wTask].length ∧
    ∀ (i : ℕ) (hi : i < [wTask].length),
      ∃ r, [some (toTaskResult wTask wTrace)][i]? = some (some r) ∧
        r.id = [wTask][i].id := by
  have h1 : ProcStep (T := Unit) (R := Unit) 1 [wTask] (initState [wTask]) wS1 :=
    ProcStep.dispatch (initState [wTask]) wTask [] rfl rfl (by simp [initState])
  have h2 : ProcStep (T := Unit) (R := Unit) 1 [wTask] wS1 wS2 :=
    ProcStep.complete wS1 wTask wTrace (by simp [wS1])
  have hreach : ProcReachable 1 [wTask] wS2 :=
    Relation.ReflTransGen.head h1 (Relation.ReflTransGen.single h2)
  exact processAll_ordering 1 [wTask] (by simp) wS2 hreach
    [some (toTaskResult wTask wTrace)] rfl

/-! ## Claim C2: cancellation drops queued tasks (code bug)

cancel() aborts the signal and clears the queue; processNext refuses to
dispatch after abort, and checkCompletion only resolves when the results
map holds one entry per input task.  A queued-but-unstarted task therefore
never receives a result — it is not resolved as Aborted — and the promise
returned by processAll never resolves.  The run below exhibits this with
two tasks and concurrency 1. -/

def cTask0 : TaskModel Unit := { id := "t0", data := () }

def cTask1 : TaskModel Unit := { id := "t1", data := () }

/-- Retry outcome of the in-flight task after cancellation: the abort check
at the top of the retry loop returns the Aborted failure. -/
def cAborted : RetryTrace Unit :=
  { success := false, result? := none, error? := some "Aborted",
    attemptsUsed := 0, delays := [] }

def cS1 : ProcState Unit Unit :=
  { queue := [cTask1], active := [cTask0], results := [], aborted := false,
    resolved := none, completed := 0 }

def cS2 : ProcState Unit Unit :=
  { cS1 with aborted := true, queue := [] }

def cS3 : ProcState Unit Unit :=
  completeStep [cTask0, cTask1] cS2 cTask0 (toTaskResult cTask0 cAborted)

/-- C2 (refutation): cS3 is reachable by dispatching the first task,
calling cancel, and letting the in-flight task settle as Aborted; from cS3
every further reachable state still has an unresolved promise and no
result for the never-started second task.  The claim's guarantee — the
not-yet-started task resolves as Aborted and processAll still resolves —
fails on the code: the queue is cleared, the results map is forever short
of the input length, and checkCompletion never fires. -/
theorem processAll_cancel_never_resolves (s' : ProcState Unit Unit)
    (hs' : Relation.ReflTransGen (ProcStep 1 [cTask0, cTask1]) cS3 s') :
    ProcReachable 1 [cTask0, cTask1] cS3 ∧
    cS3.aborted = true ∧
    s'.resolved = none ∧ mapGet s'.results cTask1.id = none := by
  have h1 : ProcStep (T := Unit) (R := Unit) 1 [cTask0, cTask1]
      (initState [cTask0, cTask1]) cS1 :=
    ProcStep.dispatch (initState [cTask0, cTask1]) cTask0 [cTask1] rfl rfl
      (by simp [initState])
  have h2 : ProcStep (T := Unit) (R := Unit) 1 [cTask0, cTask1] cS1 cS2 :=
    ProcStep.cancel cS1
  have h3 : ProcStep (T := Unit) (R := Unit) 1 [cTask0, cTask1] cS2 cS3 :=
    ProcStep.complete cS2 cTask0 cAborted (by simp [cS2, cS1])
  have hreach : ProcReachable 1 [cTask0, cTask1] cS3 :=
    Relation.ReflTransGen.head h1 (Relation.ReflTransGen.head h2
      (Relation.ReflTransGen.single h3))
  have hQ : ∀ u, Relation.ReflTransGen (ProcStep 1 [cTask0, cTask1]) cS3 u →
      u.queue = [] ∧ u.active = [] ∧ u.resolved = none ∧
      u.results = [(cTask0.id, toTaskResult cTask0 cAborted)] := by
    intro u hu
    induction hu with
    | refl => exact ⟨rfl, rfl, rfl, rfl⟩
    | tail hab hbc ih =>
        rcases ih with ⟨hq, ha, hr, hm⟩
        cases hbc with
        | dispatch t rest habort hqe hlen =>
            rw [hq] at hqe
            exact absurd hqe (by simp)
        | complete t tr hmem =>
            rw [ha] at hmem
            exact absurd hmem (by simp)
        | cancel => exact ⟨rfl, ha, hr, hm⟩
  rcases hQ s' hs' with ⟨-, -, hr, hm⟩
  refine ⟨hreach, rfl, hr, ?_⟩
  rw [hm]
  rfl

/-- C2 witness-style instantiation at cS3 itself. -/
theorem processAll_cancel_never_resolves_witness :
    ProcReachable 1 [cTask0, cTask1] cS3 ∧
    cS3.aborted = true ∧
    cS3.resolved = none ∧ mapGet cS3.results cTask1.id = none :=
  processAll_cancel_never_resolves cS3 Relation.ReflTransGen.refl

/-! ## parallelMap (src/lib/parallel-processor.ts) and
convertImagesParallel (image-converter module)

parallelMap starts min(concurrency, items.length) identical workers; each
worker repeatedly claims the next index (const index = nextIndex++ runs
atomically between awaits of the single-threaded event loop), awaits the
processor on its item and writes the slot results[index].  Claiming and
writing are the two atomic sections of the machine below; how many claimed
but unwritten indices coexist is bounded by the worker count, which does
not affect the slots written, so it is left unconstrained. -/

/-- Worker-pool state of one parallelMap call: the shared nextIndex
counter, the claimed-but-unwritten indices, and the result slots. -/
structure PMapState (R : Type) where
  nextIndex : ℕ
  pending : List ℕ
  results : List (Option R)
deriving DecidableEq, Repr

/-- State when the workers start: counter at zero, no claims, one empty
slot per item (results is allocated as new Array(items.length)). -/
def pmapInit {T R : Type} (items : List T) : PMapState R :=
  { nextIndex := 0, pending := [], results := List.replicate items.length none }

/-- Atomic transitions of parallelMap; f i it is the settled value of
processor(items[i], i). -/
inductive PMapStep {T R : Type} (items : List T) (f : ℕ → T → R) :
    PMapState R → PMapState R → Prop where
  | claim (s : PMapState R) :
      s.nextIndex < items.length →
      PMapStep items f s { s with nextIndex := s.nextIndex + 1,
                                  pending := s.pending ++ [s.nextIndex] }
  | write (s : PMapState R) (i : ℕ) (hi : i < items.length) :
      i ∈ s.pending →
      PMapStep items f s { s with pending := s.pending.erase i,
                                  results := s.results.set i (some (f i items[i])) }

def PMapReachable {T R : Type} (items : List T) (f : ℕ → T → R)
    (s : PMapState R) : Prop :=
  Relation.ReflTransGen (PMapStep items f) (pmapInit items) s

/-- Inductive invariant of parallelMap: the counter never passes the item
count, claims are distinct indices below the counter, slots beyond or at
the counter are still empty, and every claimed-and-written index below the
counter holds its item's processor value. -/
structure PMapInv {T R : Type} (items : List T) (f : ℕ → T → R)
    (s : PMapState R) : Prop where
  len : s.results.length = items.length
  hnext : s.nextIndex ≤ items.length
  pendLt : ∀ i ∈ s.pending, i < s.nextIndex
  pendNodup : s.pending.Nodup
  lowDone : ∀ (i : ℕ) (hi : i < items.length), i < s.nextIndex → i ∉ s.pending →
    s.results[i]? = some (some (f i items[i]))

theorem PMapInv_init {T R : Type} (items : List T) (f : ℕ → T → R) :
    PMapInv items f (pmapInit (R := R) items) := by
  refine ⟨by simp [pmapInit], by simp [pmapInit], by simp [pmapInit],
    by simp [pmapInit], ?_⟩
  intro i hi hlt
  exact absurd hlt (by simp [pmapInit])

theorem PMapInv_step {T R : Type} {items : List T} {f : ℕ → T → R}
    {s s' : PMapState R} (hinv : PMapInv items f s)
    (hstep : PMapStep items f s s') : PMapInv items f s' := by
  cases hstep with
  | claim hlt =>
      refine ⟨hinv.len, hlt, ?_, ?_, ?_⟩
      · intro i hi
        rcases List.mem_append.mp hi with h1 | h1
        · exact Nat.lt_succ_of_lt (hinv.pendLt i h1)
        · have his : i = s.nextIndex := by simpa using h1
          simp [his]
      · rw [List.nodup_append]
        refine ⟨hinv.pendNodup, List.nodup_singleton _, ?_⟩
        intro a ha hb
        have hab : a = s.nextIndex := by simpa using hb
        rw [hab] at ha
        exact absurd (hinv.pendLt _ ha) (lt_irrefl _)
      · intro i hi hlt2 hnp
        have hnp' : i ∉ s.pending := fun h => hnp (List.mem_append.mpr (Or.inl h))
        rcases Nat.lt_or_ge i s.nextIndex with h1 | h1
        · exact hinv.lowDone i hi h1 hnp'
        · have hie : i = s.nextIndex := by
            simp only [Nat.lt_succ_iff] at hlt2
            omega
          exact absurd (List.mem_append.mpr (Or.inr (by simp [hie]))) hnp
  | write i hi hmem =>
      refine ⟨by simpa [List.length_set] using hinv.len, hinv.hnext, ?_, ?_, ?_⟩
      · intro j hj
        exact hinv.pendLt j (List.mem_of_mem_erase hj)
      · exact hinv.pendNodup.erase i
      · intro j hj hlt2 hnp
        by_cases hij : i = j
        · subst hij
          rw [List.getElem?_set_self (by rw [hinv.len]; exact hi)]
        · rw [List.getElem?_set_ne hij]
          refine hinv.lowDone j hj hlt2 ?_
          intro hjp
          exact hnp ((List.mem_erase_of_ne (fun h => hij h.symm)).mpr hjp)

theorem PMapInv_reachable {T R : Type} (items : List T) (f : ℕ → T → R)
    (s : PMapState R) (hs : PMapReachable items f s) : PMapInv items f s := by
  induction hs with
  | refl => exact PMapInv_init items f
  | tail hab hbc ih => exact PMapInv_step ih hbc

/-- Termination measure: two units per unclaimed index plus one per claim
in flight; every transition strictly decreases it. -/
def pmapMeasure {R : Type} (itemCount : ℕ) (s : PMapState R) : ℕ :=
  2 * (itemCount - s.nextIndex) + s.pending.length

/-- Progress and termination: from any state satisfying the invariant the
pool runs to a final state — no claims outstanding and every index
claimed — so parallelMap's Promise.all resolves. -/
theorem pmap_terminates {T R : Type} (items : List T) (f : ℕ → T → R) :
    ∀ (n : ℕ) (s : PMapState R), pmapMeasure items.length s = n →
      PMapInv items f s →
      ∃ s', Relation.ReflTransGen (PMapStep items f) s s' ∧
        s'.nextIndex = items.length ∧ s'.pending = [] := by
  intro n
  induction n using Nat.strong_induction_on with
  | _ n ih =>
      intro s hn hinv
      by_cases hclaim : s.nextIndex < items.length
      · have hstep := @PMapStep.claim _ _ items f s hclaim
        have hinv' := PMapInv_step hinv hstep
        have hm : pmapMeasure items.length
            { s with nextIndex := s.nextIndex + 1,
                     pending := s.pending ++ [s.nextIndex] } < n := by
          subst hn
          simp only [pmapMeasure, List.length_append, List.length_singleton]
          omega
        rcases ih _ hm _ rfl hinv' with ⟨s', hsteps, hfin⟩
        exact ⟨s', Relation.ReflTransGen.head hstep hsteps, hfin⟩
      · rcases hp : s.pending with _ | ⟨i, rest⟩
        · exact ⟨s, Relation.ReflTransGen.refl,
            le_antisymm hinv.hnext (not_lt.mp hclaim), hp⟩
        · have hmem : i ∈ s.pending := by rw [hp]; exact List.mem_cons_self _ _
          have hilt : i < items.length :=
            lt_of_lt_of_le (hinv.pendLt i hmem) hinv.hnext
          have hstep := @PMapStep.write _ _ items f s i hilt hmem
          have hinv' := PMapInv_step hinv hstep
          have hm : pmapMeasure items.length
              { s with pending := s.pending.erase i,
                       results := s.results.set i (some (f i items[i])) } < n := by
            subst hn
            have hlen := List.length_erase_of_mem hmem
            have hpos : 0 < s.pending.length := by rw [hp]; simp
            simp only [pmapMeasure, hlen]
            omega
          rcases ih _ hm _ rfl hinv' with ⟨s', hsteps, hfin⟩
          exact ⟨s', Relation.ReflTransGen.head hstep hsteps, hfin⟩

/-! ## convertImagesParallel (per-item delegation path) -/

/-- Item handed to the converters: the identifier and the opaque file. -/
structure ImageItem where
  id : String
  file : String
deriving DecidableEq, Repr

/-- Result of a successful client-side convertImage call: the decoded
payload (blob and object URL collapsed to one opaque datum) and sizes. -/
structure ConversionResult where
  data : String
  size : ℕ
  originalSize : ℕ
deriving DecidableEq, Repr

/-- Client-side per-item result record. -/
structure BatchConversionResult where
  id : String
  success : Bool
  data? : Option String
  size? : Option ℕ
  originalSize? : Option ℕ
  error? : Option String
deriving DecidableEq, Repr

/-- Body convertImagesParallel passes to parallelMap: convertImage either
returns a result or throws, and both outcomes are captured into a
BatchConversionResult carrying the item's id — the catch branch stores the
thrown error's message. -/
def convertItem (conv : ImageItem → Except String ConversionResult)
    (it : ImageItem) : BatchConversionResult :=
  match conv it with
  | .ok r =>
      { id := it.id, success := true, data? := some r.data,
        size? := some r.size, originalSize? := some r.originalSize, error? := none }
  | .error e =>
      { id := it.id, success := false, data? := none,
        size? := none, originalSize? := none, error? := some e }

/-- C10: convertImagesParallel resolves rather than rejecting — every run
of the worker pool reaches a final state — and in any final state the
result array has one slot per input item, the i-th slot holding the
result for the i-th item: its id is that item's id, and when convertImage
threw, a success:false entry carrying the error message. -/
theorem convertImagesParallel_spec (items : List ImageItem)
    (conv : ImageItem → Except String ConversionResult)
    (s : PMapState BatchConversionResult)
    (hs : PMapReachable items (fun _ it => convertItem conv it) s) :
    (∃ s', Relation.ReflTransGen
        (PMapStep items (fun _ it => convertItem conv it)) s s' ∧
        s'.nextIndex = items.length ∧ s'.pending = []) ∧
    (s.nextIndex = items.length → s.pending = [] →
      s.results.length = items.length ∧
      ∀ (i : ℕ) (hi : i < items.length),
        s.results[i]? = some (some (convertItem conv items[i])) ∧
        (convertItem conv items[i]).id = items[i].id ∧
        ∀ e, conv items[i] = .error e →
          (convertItem conv items[i]).success = false ∧
          (convertItem conv items[i]).error? = some e) := by
  have hinv := PMapInv_reachable items _ s hs
  constructor
  · exact pmap_terminates items _ _ s rfl hinv
  · intro hn hp
    refine ⟨hinv.len, ?_⟩
    intro i hi
    refine ⟨hinv.lowDone i hi (by omega) (by simp [hp]), ?_, ?_⟩
    · unfold convertItem
      rcases conv items[i] with e | r
      · rfl
      · rfl
    · intro e he
      unfold convertItem
      rw [he]
      exact ⟨rfl, rfl⟩

/-- C10 witness: one item whose conversion throws; the two-step run claims
index 0 and writes the captured failure, reaching the final state. -/
theorem convertImagesParallel_spec_witness :
    (∃ s', Relation.ReflTransGen
        (PMapStep [ImageItem.mk "a" "f"]
          (fun _ it => convertItem (fun _ => Except.error "down") it))
        { nextIndex := 1, pending := [],
          results := [some (convertItem (fun _ => Except.error "down")
            (ImageItem.mk "a" "f"))] } s' ∧
        s'.nextIndex = 1 ∧ s'.pending = []) ∧
    (1 = 1 → ([] : List ℕ) = [] →
      [some (convertItem (fun _ => (Except.error "down" : Except String ConversionResult))
        (ImageItem.mk "a" "f"))].length = 1 ∧
      ∀ (i : ℕ) (hi : i < [ImageItem.mk "a" "f"].length),
        [some (convertItem (fun _ => Except.error "down") (ImageItem.mk "a" "f"))][i]? =
          some (some (convertItem (fun _ => Except.error "down")
            ([ImageItem.mk "a" "f"])[i])) ∧
        (convertItem (fun _ => Except.error "down") ([ImageItem.mk "a" "f"])[i]).id =
          ([ImageItem.mk "a" "f"])[i].id ∧
        ∀ e, (fun (_ : ImageItem) =>
            (Except.error "down" : Except String ConversionResult)) ([ImageItem.mk "a" "f"])[i]
              = .error e →
          (convertItem (fun _ => Except.error "down")
            ([ImageItem.mk "a" "f"])[i]).success = false ∧
          (convertItem (fun _ => Except.error "down")
            ([ImageItem.mk "a" "f"])[i]).error? = some e) := by
  have h1 : PMapStep [ImageItem.mk "a" "f"]
      (fun _ it => convertItem (fun _ => Except.error "down") it)
      (pmapInit [ImageItem.mk "a" "f"])
      { nextIndex := 1, pending := [0], results := [none] } := by
    have := @PMapStep.claim _ _ [ImageItem.mk "a" "f"]
      (fun _ it => convertItem (fun _ => Except.error "down") it)
      (pmapInit [ImageItem.mk "a" "f"]) (by simp [pmapInit])
    simpa [pmapInit] using this
  have h2 : PMapStep [ImageItem.mk "a" "f"]
      (fun _ it => convertItem (fun _ => Except.error "down") it)
      { nextIndex := 1, pending := [0], results := [none] }
      { nextIndex := 1, pending := [],
        results := [some (convertItem (fun _ => Except.error "down")
          (ImageItem.mk "a" "f"))] } := by
    have := @PMapStep.write _ _ [ImageItem.mk "a" "f"]
      (fun _ it => convertItem (fun _ => Except.error "down") it)
      { nextIndex := 1, pending := [0], results := [none] } 0 (by simp) (by simp)
    simpa using this
  have hreach : PMapReachable [ImageItem.mk "a" "f"]
      (fun _ it => convertItem (fun _ => Except.error "down") it)
      { nextIndex := 1, pending := [],
        results := [some (convertItem (fun _ => Except.error "down")
          (ImageItem.mk "a" "f"))] } :=
    Relation.ReflTransGen.head h1 (Relation.ReflTransGen.single h2)
  have h := convertImagesParallel_spec [ImageItem.mk "a" "f"]
    (fun _ => Except.error "down") _ hreach
  exact ⟨h.1, fun _ _ => h.2 rfl rfl⟩

/-! ## Server batch route (processInParallel in convert-batch/route.ts)

The route converts every posted file with convertSingleImage, which never
throws (its catch returns a failure record under the same id), and pushes
each result onto the results array at the moment its promise settles.  The
response array is therefore in completion order, not input order.  The
machine takes starting a file (under the concurrency limit) and settling a
file as its transitions. -/

/-- Per-item result record of the batch route. -/
structure BatchResult where
  id : String
  success : Bool
  data? : Option String
  size? : Option ℕ
  originalSize? : Option ℕ
  error? : Option String
deriving DecidableEq, Repr

/-- convertSingleImage: sharpConv is the opaque decode-resize-encode
pipeline returning payload and sizes, or a thrown message which the catch
branch turns into a failure record with the same id. -/
def convertSingleImage (sharpConv : ImageItem → Except String (String × ℕ × ℕ))
    (it : ImageItem) : BatchResult :=
  match sharpConv it with
  | .ok (d, sz, osz) =>
      { id := it.id, success := true, data? := some d,
        size? := some sz, originalSize? := some osz, error? := none }
  | .error e =>
      { id := it.id, success := false, data? := none,
        size? := none, originalSize? := none, error? := some e }

structure ServerState where
  queue : List ImageItem
  inProgress : List ImageItem
  results : List BatchResult
deriving DecidableEq, Repr

def serverInit (files : List ImageItem) : ServerState :=
  { queue := files, inProgress := [], results := [] }

/-- Transitions of processInParallel: start a queued file while under the
concurrency limit, or let an in-flight file settle, appending its result
in completion order. -/
inductive ServerStep (conv : ImageItem → BatchResult) (concurrency : ℕ) :
    ServerState → ServerState → Prop where
  | start (s : ServerState) (it : ImageItem) (rest : List ImageItem) :
      s.queue = it :: rest → s.inProgress.length < concurrency →
      ServerStep conv concurrency s
        { s with queue := rest, inProgress := s.inProgress ++ [it] }
  | finish (s : ServerState) (it : ImageItem) :
      it ∈ s.inProgress →
      ServerStep conv concurrency s
        { s with inProgress := s.inProgress.erase it,
                 results := s.results ++ [conv it] }

def ServerReachable (conv : ImageItem → BatchResult) (concurrency : ℕ)
    (files : List ImageItem) (s : ServerState) : Prop :=
  Relation.ReflTransGen (ServerStep conv concurrency) (serverInit files) s

/-- Accounting invariant of the route's loop: the results are the converted
outputs of some list of processed files, and queued, in-flight and
processed files together are the input files. -/
theorem server_accounting (conv : ImageItem → BatchResult) (c : ℕ)
    (files : List ImageItem) (s : ServerState)
    (hs : ServerReachable conv c files s) :
    ∃ processed : List ImageItem,
      s.results = processed.map conv ∧
      ((s.queue : Multiset ImageItem) + (s.inProgress : Multiset ImageItem) +
        (processed : Multiset ImageItem)) = (files : Multiset ImageItem) := by
  induction hs with
  | refl => exact ⟨[], rfl, by simp [serverInit]⟩
  | tail hab hbc ih =>
      rcases ih with ⟨processed, hres, hacc⟩
      cases hbc with
      | start it rest hq hlen =>
          refine ⟨processed, hres, ?_⟩
          rw [← hacc, hq]
          simp only [Multiset.coe_add]
          rw [Multiset.coe_eq_coe, ← List.append_assoc]
          exact List.Perm.append (List.perm_append_singleton it _) (List.Perm.refl _)
      | finish it hmem =>
          refine ⟨processed ++ [it], by simp [hres], ?_⟩
          rw [← hacc]
          simp only [Multiset.coe_add]
          rw [Multiset.coe_eq_coe]
          refine List.Perm.trans (List.Perm.append (List.Perm.refl _)
            (List.perm_append_singleton it processed)) ?_
          refine List.Perm.trans List.perm_middle ?_
          refine List.Perm.symm ?_
          refine List.Perm.trans (List.Perm.append (List.Perm.append
            (List.Perm.refl _) (List.perm_cons_erase hmem)) (List.Perm.refl _)) ?_
          exact List.Perm.append List.perm_middle (List.Perm.refl _)

theorem convertSingleImage_id (sharpConv : ImageItem → Except String (String × ℕ × ℕ))
    (it : ImageItem) : (convertSingleImage sharpConv it).id = it.id := by
  unfold convertSingleImage
  cases h : sharpConv it with
  | error e => rfl
  | ok v =>
      obtain ⟨d, sz, osz⟩ := v
      rfl

/-- Whatever completion order the route's loop takes, a finished run's
response carries exactly one result per posted file: the response ids are a
permutation of the file ids. -/
theorem processInParallel_results (sharpConv : ImageItem → Except String (String × ℕ × ℕ))
    (c : ℕ) (files : List ImageItem) (s : ServerState)
    (hs : ServerReachable (convertSingleImage sharpConv) c files s)
    (hq : s.queue = []) (hip : s.inProgress = []) :
    (s.results.map BatchResult.id).Perm (files.map ImageItem.id) := by
  rcases server_accounting _ c files s hs with ⟨processed, hres, hacc⟩
  rw [hq, hip] at hacc
  have hperm : processed.Perm files := by
    rw [← Multiset.coe_eq_coe]
    simpa using hacc
  rw [hres, List.map_map]
  have hcomp : processed.map (BatchResult.id ∘ convertSingleImage sharpConv) =
      processed.map ImageItem.id :=
    List.map_congr_left fun it _ => convertSingleImage_id sharpConv it
  rw [hcomp]
  exact hperm.map ImageItem.id

/-! ## Client batch coordinator (convertImagesBatch, chunkArray)

convertImagesBatch splits the images into chunks of BATCH_SIZE = 10,
awaits the chunks sequentially, and appends per-chunk results: on a non-ok
response or a thrown transport error a failure entry per chunk item, and
on success one client entry per element of the response's results array,
in the order the server sent them.  The server round-trip is the oracle
resp; its ok payload is processInParallel's completion-ordered output. -/

/-- chunkArray from the image-converter module; the loop index advances by
size, encoded as fuel bounded by the list length (the caller always passes
size = 10 > 0). -/
def chunkArrayGo {α : Type} (size : ℕ) : ℕ → List α → List (List α)
  | 0, _ => []
  | _ + 1, [] => []
  | fuel + 1, x :: xs => (x :: xs).take size :: chunkArrayGo size fuel ((x :: xs).drop size)

def chunkArray {α : Type} (arr : List α) (size : ℕ) : List (List α) :=
  chunkArrayGo size arr.length arr

theorem chunkArrayGo_flatten {α : Type} (size : ℕ) (hpos : 0 < size) :
    ∀ (fuel : ℕ) (xs : List α), xs.length ≤ fuel →
      (chunkArrayGo size fuel xs).flatten = xs := by
  intro fuel
  induction fuel with
  | zero =>
      intro xs h
      have hx : xs = [] := List.length_eq_zero.mp (Nat.le_zero.mp h)
      subst hx
      rfl
  | succ fuel ih =>
      intro xs h
      cases xs with
      | nil => rfl
      | cons x xs =>
          simp only [chunkArrayGo, List.flatten_cons]
          rw [ih ((x :: xs).drop size)
            (by rw [List.length_drop]; simp only [List.length_cons] at h ⊢; omega)]
          exact List.take_append_drop size (x :: xs)

theorem chunkArray_flatten {α : Type} (arr : List α) (size : ℕ) (hpos : 0 < size) :
    (chunkArray arr size).flatten = arr :=
  chunkArrayGo_flatten size hpos arr.length arr le_rfl

/-- Outcome of one chunk round-trip as the client sees it: a non-ok HTTP
response, a thrown transport error with its message, or the parsed
results array. -/
inductive ChunkOutcome where
  | notOk : ChunkOutcome
  | netError : String → ChunkOutcome
  | ok : List BatchResult → ChunkOutcome
deriving DecidableEq, Repr

/-- Client mapping of one server result: success with a data payload
becomes a success entry, anything else a failure entry with the reported
or default message; both keep the server-reported id. -/
def clientResult (r : BatchResult) : BatchConversionResult :=
  if r.success = true ∧ r.data?.isSome = true then
    { id := r.id, success := true, data? := r.data?,
      size? := r.size?, originalSize? := r.originalSize?, error? := none }
  else
    { id := r.id, success := false, data? := none, size? := none,
      originalSize? := none, error? := some (r.error?.getD "Conversion failed") }

theorem clientResult_id (r : BatchResult) : (clientResult r).id = r.id := by
  unfold clientResult
  by_cases h : r.success = true ∧ r.data?.isSome = true
  · rw [if_pos h]
  · rw [if_neg h]

/-- Failure entries synthesized for a whole chunk. -/
def chunkFailResults (chunk : List ImageItem) (msg : String) : List BatchConversionResult :=
  chunk.map fun it =>
    { id := it.id, success := false, data? := none, size? := none,
      originalSize? := none, error? := some msg }

/-- Results the loop body pushes for one chunk. -/
def chunkBlock (resp : List ImageItem → ChunkOutcome)
    (chunk : List ImageItem) : List BatchConversionResult :=
  match resp chunk with
  | ChunkOutcome.notOk => chunkFailResults chunk "Batch conversion failed"
  | ChunkOutcome.netError e => chunkFailResults chunk e
  | ChunkOutcome.ok rs => rs.map clientResult

/-- convertImagesBatch: sequential chunk loop appending each chunk's
results. -/
def convertImagesBatch (images : List ImageItem)
    (resp : List ImageItem → ChunkOutcome) : List BatchConversionResult :=
  ((chunkArray images 10).map (chunkBlock resp)).flatten

theorem chunkBlock_ids (resp : List ImageItem → ChunkOutcome)
    (chunk : List ImageItem)
    (hok : ∀ rs, resp chunk = ChunkOutcome.ok rs →
      (rs.map BatchResult.id).Perm (chunk.map ImageItem.id)) :
    ((chunkBlock resp chunk).map BatchConversionResult.id).Perm
      (chunk.map ImageItem.id) := by
  cases hre : resp chunk with
  | notOk =>
      have hb : chunkBlock resp chunk = chunkFailResults chunk "Batch conversion failed" := by
        unfold chunkBlock
        rw [hre]
      rw [hb]
      unfold chunkFailResults
      rw [List.map_map]
      exact List.Perm.refl _
  | netError e =>
      have hb : chunkBlock resp chunk = chunkFailResults chunk e := by
        unfold chunkBlock
        rw [hre]
      rw [hb]
      unfold chunkFailResults
      rw [List.map_map]
      exact List.Perm.refl _
  | ok rs =>
      have hb : chunkBlock resp chunk = rs.map clientResult := by
        unfold chunkBlock
        rw [hre]
      rw [hb, List.map_map]
      have hcomp : (BatchConversionResult.id ∘ clientResult) = BatchResult.id :=
        funext fun r => clientResult_id r
      rw [hcomp]
      exact hok rs hre

theorem blocks_ids_perm (resp : List ImageItem → ChunkOutcome) :
    ∀ (chunks : List (List ImageItem)),
      (∀ chunk ∈ chunks, ∀ rs, resp chunk = ChunkOutcome.ok rs →
        (rs.map BatchResult.id).Perm (chunk.map ImageItem.id)) →
      (((chunks.map (chunkBlock resp)).flatten).map BatchConversionResult.id).Perm
        ((chunks.flatten).map ImageItem.id) := by
  intro chunks
  induction chunks with
  | nil => intro _; exact List.Perm.refl _
  | cons c cs ih =>
      intro hok
      simp only [List.map_cons, List.flatten_cons, List.map_append]
      exact List.Perm.append
        (chunkBlock_ids resp c (fun rs h => hok c (by simp) rs h))
        (ih fun chunk hc rs h => hok chunk (by simp [hc]) rs h)

/-! ## Claims C5 and C6 -/

/-- C6: when every ok chunk response carries one result per chunk item
(which processInParallel guarantees — see processInParallel_results), the
merged array has exactly one result per input item — same length, ids a
permutation of the input ids — and for every chunk whose round-trip failed
as a whole, by a non-ok response or by a thrown transport error, a
success:false entry (with the synthesized message, respectively the thrown
error's message) is present for every item of that chunk: no item is lost
silently. -/
theorem convertImagesBatch_complete (images : List ImageItem)
    (resp : List ImageItem → ChunkOutcome)
    (hok : ∀ chunk ∈ chunkArray images 10, ∀ rs, resp chunk = ChunkOutcome.ok rs →
      (rs.map BatchResult.id).Perm (chunk.map ImageItem.id)) :
    (convertImagesBatch images resp).length = images.length ∧
    ((convertImagesBatch images resp).map BatchConversionResult.id).Perm
      (images.map ImageItem.id) ∧
    (∀ chunk ∈ chunkArray images 10, resp chunk = ChunkOutcome.notOk →
      ∀ it ∈ chunk,
        ({ id := it.id, success := false, data? := none, size? := none,
           originalSize? := none, error? := some "Batch conversion failed" } :
          BatchConversionResult) ∈ convertImagesBatch images resp) ∧
    (∀ chunk ∈ chunkArray images 10, ∀ e, resp chunk = ChunkOutcome.netError e →
      ∀ it ∈ chunk,
        ({ id := it.id, success := false, data? := none, size? := none,
           originalSize? := none, error? := some e } :
          BatchConversionResult) ∈ convertImagesBatch images resp) := by
  have hperm : ((convertImagesBatch images resp).map BatchConversionResult.id).Perm
      (images.map ImageItem.id) := by
    unfold convertImagesBatch
    have h := blocks_ids_perm resp (chunkArray images 10) hok
    rwa [chunkArray_flatten images 10 (by norm_num)] at h
  refine ⟨?_, hperm, ?_, ?_⟩
  · have hl := hperm.length_eq
    simpa using hl
  · intro chunk hchunk hre it hit
    unfold convertImagesBatch
    rw [List.mem_flatten]
    refine ⟨chunkBlock resp chunk, List.mem_map.mpr ⟨chunk, hchunk, rfl⟩, ?_⟩
    have hb : chunkBlock resp chunk = chunkFailResults chunk "Batch conversion failed" := by
      unfold chunkBlock
      rw [hre]
    rw [hb]
    exact List.mem_map.mpr ⟨it, hit, rfl⟩
  · intro chunk hchunk e hre it hit
    unfold convertImagesBatch
    rw [List.mem_flatten]
    refine ⟨chunkBlock resp chunk, List.mem_map.mpr ⟨chunk, hchunk, rfl⟩, ?_⟩
    have hb : chunkBlock resp chunk = chunkFailResults chunk e := by
      unfold chunkBlock
      rw [hre]
    rw [hb]
    exact List.mem_map.mpr ⟨it, hit, rfl⟩

/-- Twelve images, so the batch splits into a chunk of ten and a chunk of
two; used to witness both whole-chunk failure modes at once. -/
def mImgs : List ImageItem :=
  [ImageItem.mk "i01" "f", ImageItem.mk "i02" "f", ImageItem.mk "i03" "f",
   ImageItem.mk "i04" "f", ImageItem.mk "i05" "f", ImageItem.mk "i06" "f",
   ImageItem.mk "i07" "f", ImageItem.mk "i08" "f", ImageItem.mk "i09" "f",
   ImageItem.mk "i10" "f", ImageItem.mk "i11" "f", ImageItem.mk "i12" "f"]

/-- Transport oracle failing the first (ten-element) chunk with a non-ok
response and the second chunk with a thrown network error. -/
def mResp : List ImageItem → ChunkOutcome :=
  fun chunk => if chunk.length = 10 then ChunkOutcome.notOk
               else ChunkOutcome.netError "network down"

/-- C6 witness: twelve images over two chunks, the first failing non-ok and
the second with a thrown transport error; every item of both chunks gets
its success:false entry and no item is lost. -/
theorem convertImagesBatch_complete_witness :
    (convertImagesBatch mImgs mResp).length = mImgs.length ∧
    ((convertImagesBatch mImgs mResp).map BatchConversionResult.id).Perm
      (mImgs.map ImageItem.id) ∧
    (∀ chunk ∈ chunkArray mImgs 10, mResp chunk = ChunkOutcome.notOk →
      ∀ it ∈ chunk,
        ({ id := it.id, success := false, data? := none, size? := none,
           originalSize? := none, error? := some "Batch conversion failed" } :
          BatchConversionResult) ∈ convertImagesBatch mImgs mResp) ∧
    (∀ chunk ∈ chunkArray mImgs 10, ∀ e, mResp chunk = ChunkOutcome.netError e →
      ∀ it ∈ chunk,
        ({ id := it.id, success := false, data? := none, size? := none,
           originalSize? := none, error? := some e } :
          BatchConversionResult) ∈ convertImagesBatch mImgs mResp) :=
  convertImagesBatch_complete mImgs mResp
    (fun chunk _ rs hre => by
      unfold mResp at hre
      by_cases h : chunk.length = 10
      · rw [if_pos h] at hre
        exact ChunkOutcome.noConfusion hre
      · rw [if_neg h] at hre
        exact ChunkOutcome.noConfusion hre)

/-- Concrete two-image batch whose server run completes in reverse order. -/
def bImg0 : ImageItem := { id := "a", file := "f0" }

def bImg1 : ImageItem := { id := "b", file := "f1" }

/-- Pipeline that succeeds on every file. -/
def bSharp : ImageItem → Except String (String × ℕ × ℕ) :=
  fun it => Except.ok (it.file, 1, 2)

def bServer1 : ServerState :=
  { queue := [bImg1], inProgress := [bImg0], results := [] }

def bServer2 : ServerState :=
  { queue := [], inProgress := [bImg0, bImg1], results := [] }

def bServer3 : ServerState :=
  { queue := [], inProgress := [bImg0], results := [convertSingleImage bSharp bImg1] }

def bServer4 : ServerState :=
  { queue := [], inProgress := [],
    results := [convertSingleImage bSharp bImg1, convertSingleImage bSharp bImg0] }

/-- Transport oracle replaying that completion-ordered server response. -/
def bResp : List ImageItem → ChunkOutcome :=
  fun _ => ChunkOutcome.ok
    [convertSingleImage bSharp bImg1, convertSingleImage bSharp bImg0]

/-- C5 counterexample: with two images in one chunk, the server's loop may
finish the second image first (both files start under the concurrency
limit of 8, then settle in reverse), and processInParallel pushes results
in completion order; the client appends the response as-is, so the merged
array's first element carries the id of the second input item — the claim
that the i-th element matches the i-th item regardless of per-item
completion order is false of the code. -/
theorem convertImagesBatch_order_counterexample :
    ServerReachable (convertSingleImage bSharp) 8 [bImg0, bImg1] bServer4 ∧
    bServer4.queue = [] ∧ bServer4.inProgress = [] ∧
    (convertImagesBatch [bImg0, bImg1] bResp).map BatchConversionResult.id
      = ["b", "a"] ∧
    [bImg0, bImg1].map ImageItem.id = ["a", "b"] := by
  refine ⟨?_, rfl, rfl, ?_, rfl⟩
  · have h1 : ServerStep (convertSingleImage bSharp) 8
        (serverInit [bImg0, bImg1]) bServer1 :=
      ServerStep.start _ bImg0 [bImg1] rfl (by simp [serverInit])
    have h2 : ServerStep (convertSingleImage bSharp) 8 bServer1 bServer2 :=
      ServerStep.start _ bImg1 [] rfl (by simp [bServer1])
    have h3 : ServerStep (convertSingleImage bSharp) 8 bServer2 bServer3 :=
      ServerStep.finish _ bImg1 (by simp [bServer2])
    have h4 : ServerStep (convertSingleImage bSharp) 8 bServer3 bServer4 :=
      ServerStep.finish _ bImg0 (by simp [bServer3])
    exact Relation.ReflTransGen.head h1 (Relation.ReflTransGen.head h2
      (Relation.ReflTransGen.head h3 (Relation.ReflTransGen.single h4)))
  · rfl

/-- C5 amended: the merged array is the concatenation, in chunk order, of
one block per chunk (the chunks reassemble the input exactly), and each
block holds exactly one result per item of its chunk — its ids are a
permutation of the chunk's ids; but within a chunk the order is the
order of the server's response (its completion order), not the input
order. -/
theorem convertImagesBatch_chunkwise (images : List ImageItem)
    (resp : List ImageItem → ChunkOutcome)
    (hok : ∀ chunk ∈ chunkArray images 10, ∀ rs, resp chunk = ChunkOutcome.ok rs →
      (rs.map BatchResult.id).Perm (chunk.map ImageItem.id)) :
    (chunkArray images 10).flatten = images ∧
    convertImagesBatch images resp =
      ((chunkArray images 10).map (chunkBlock resp)).flatten ∧
    List.Forall₂ (fun block chunk =>
        (block.map BatchConversionResult.id).Perm (chunk.map ImageItem.id))
      ((chunkArray images 10).map (chunkBlock resp)) (chunkArray images 10) := by
  refine ⟨chunkArray_flatten images 10 (by norm_num), rfl, ?_⟩
  rw [List.forall₂_map_left_iff, List.forall₂_same]
  intro chunk hchunk
  exact chunkBlock_ids resp chunk (hok chunk hchunk)

/-- C5 amended, witness: the reverse-order response above still yields one
block whose ids are a permutation of the chunk's ids. -/
theorem convertImagesBatch_chunkwise_witness :
    (chunkArray [bImg0, bImg1] 10).flatten = [bImg0, bImg1] ∧
    convertImagesBatch [bImg0, bImg1] bResp =
      ((chunkArray [bImg0, bImg1] 10).map (chunkBlock bResp)).flatten ∧
    List.Forall₂ (fun block chunk =>
        (block.map BatchConversionResult.id).Perm (chunk.map ImageItem.id))
      ((chunkArray [bImg0, bImg1] 10).map (chunkBlock bResp))
      (chunkArray [bImg0, bImg1] 10) :=
  convertImagesBatch_chunkwise [bImg0, bImg1] bResp
    (fun chunk hchunk rs hre => by
      have hc : chunk = [bImg0, bImg1] := by
        have he : chunkArray [bImg0, bImg1] 10 = [[bImg0, bImg1]] := rfl
        rw [he] at hchunk
        simpa using hchunk
      have hrs : rs = [convertSingleImage bSharp bImg1,
          convertSingleImage bSharp bImg0] := by
        have hre' : ChunkOutcome.ok [convertSingleImage bSharp bImg1,
            convertSingleImage bSharp bImg0] = ChunkOutcome.ok rs := hre
        exact (ChunkOutcome.ok.injEq _ _ ▸ hre').symm
      subst hc
      subst hrs
      decide)

end WebpConverter
